import Mathlib

set_option linter.unnecessarySeqFocus false

/-!
Verification of the game core of `MI_Project.py`: a two-player
multiplication game (multipliers 2/3/4, terminal threshold 1200, parity
scoring) together with its minimax and alpha-beta search engines.

The Python code is shallowly embedded: Python ints become `Int`, the
float infinities used as initial best values and as the alpha/beta
window become the three-valued type `XInt`, the global node counter
`NODES_VISITED` is threaded explicitly through the `...C` variants, and
the mutating `copy`-then-update construction of successor states becomes
pure record updates.
-/

/-- Embeds `class Player`: the two class constants `HUMAN` and `COMPUTER`. -/
inductive Player where
  | human : Player
  | computer : Player
deriving DecidableEq, Repr

/-- Embeds `class GameState` (fields set in `__init__`). -/
structure GameState where
  current_number : Int
  human_score : Int
  computer_score : Int
  current_player : Player
deriving DecidableEq, Repr

/-- Embeds `is_terminal`: the game ends as soon as the current number is >= 1200. -/
def is_terminal (s : GameState) : Bool :=
  decide (s.current_number ≥ 1200)

/-- Embeds `evaluate`: terminal states get a large sentinel by score
comparison, non-terminal states the score difference. -/
def evaluate (s : GameState) : Int :=
  if is_terminal s then
    if s.human_score > s.computer_score then -999999
    else if s.computer_score > s.human_score then 999999
    else 0
  else
    s.computer_score - s.human_score

/-- Embeds the body of the `for multiplier in [2, 3, 4]` loop of
`get_successors`: copy the state, multiply the number, apply the parity
scoring rule, and switch the turn only when the game does not end. -/
def succ_child (s : GameState) (multiplier : Int) : GameState :=
  let new_number := s.current_number * multiplier
  let child1 : GameState := { s with current_number := new_number }
  let child2 : GameState :=
    if new_number % 2 == 0 then
      if child1.current_player = Player.human then
        { child1 with computer_score := child1.computer_score - 1 }
      else
        { child1 with human_score := child1.human_score - 1 }
    else
      if child1.current_player = Player.human then
        { child1 with human_score := child1.human_score + 1 }
      else
        { child1 with computer_score := child1.computer_score + 1 }
  if new_number < 1200 then
    if child2.current_player = Player.human then
      { child2 with current_player := Player.computer }
    else
      { child2 with current_player := Player.human }
  else
    child2

/-- Embeds `get_successors`: empty on terminal states, otherwise one
`(multiplier, child)` pair per multiplier in `[2, 3, 4]`. -/
def get_successors (s : GameState) : List (Int × GameState) :=
  if is_terminal s then []
  else [2, 3, 4].map fun m => (m, succ_child s m)

/-- Embeds `GameGUI.apply_move`, as a pure function on the mutated pieces
of GUI state (`self.state`, `self.game_over`): scores are updated by the
parity rule, the number is replaced, and either the game-over flag is set
(threshold reached, no turn switch) or the turn switches. -/
def apply_move (s : GameState) (multiplier : Int) (game_over : Bool) :
    GameState × Bool :=
  let new_number := s.current_number * multiplier
  let s1 : GameState :=
    if new_number % 2 == 0 then
      if s.current_player = Player.human then
        { s with computer_score := s.computer_score - 1 }
      else
        { s with human_score := s.human_score - 1 }
    else
      if s.current_player = Player.human then
        { s with human_score := s.human_score + 1 }
      else
        { s with computer_score := s.computer_score + 1 }
  let s2 : GameState := { s1 with current_number := new_number }
  if new_number ≥ 1200 then
    (s2, true)
  else
    (if s2.current_player = Player.human then
      { s2 with current_player := Player.computer }
     else
      { s2 with current_player := Player.human }, game_over)

/-- The value domain of the searches: Python mixes integer evaluation
scores with the floats `float('-inf')` and `float('inf')`. -/
inductive XInt where
  | negInf : XInt
  | int : Int → XInt
  | posInf : XInt
deriving DecidableEq, Repr

/-- Strict comparison on `XInt`, mirroring Python's `<` between the
integer scores and the two infinities. -/
def XInt.ltb : XInt → XInt → Bool
  | XInt.negInf, XInt.negInf => false
  | XInt.negInf, _ => true
  | XInt.int _, XInt.negInf => false
  | XInt.int n, XInt.int m => decide (n < m)
  | XInt.int _, XInt.posInf => true
  | XInt.posInf, _ => false

/-- Non-strict comparison on `XInt`. -/
def XInt.leb (a b : XInt) : Bool := !(XInt.ltb b a)

instance : LT XInt := ⟨fun a b => XInt.ltb a b = true⟩

instance : LE XInt := ⟨fun a b => XInt.leb a b = true⟩

instance XInt.decLT (a b : XInt) : Decidable (a < b) :=
  inferInstanceAs (Decidable (XInt.ltb a b = true))

instance XInt.decLE (a b : XInt) : Decidable (a ≤ b) :=
  inferInstanceAs (Decidable (XInt.leb a b = true))

instance : LinearOrder XInt where
  le_refl a := by
    have hle : ∀ x y : XInt, (x ≤ y) = (XInt.leb x y = true) := fun _ _ => rfl
    cases a <;> simp [hle, XInt.leb, XInt.ltb]
  le_trans a b c hab hbc := by
    have hle : ∀ x y : XInt, (x ≤ y) = (XInt.leb x y = true) := fun _ _ => rfl
    cases a <;> cases b <;> cases c <;>
      simp_all [hle, XInt.leb, XInt.ltb] <;> omega
  le_antisymm a b hab hba := by
    have hle : ∀ x y : XInt, (x ≤ y) = (XInt.leb x y = true) := fun _ _ => rfl
    cases a <;> cases b <;> simp_all [hle, XInt.leb, XInt.ltb] <;> omega
  le_total a b := by
    have hle : ∀ x y : XInt, (x ≤ y) = (XInt.leb x y = true) := fun _ _ => rfl
    cases a <;> cases b <;> simp [hle, XInt.leb, XInt.ltb] <;> omega
  lt_iff_le_not_le a b := by
    have hle : ∀ x y : XInt, (x ≤ y) = (XInt.leb x y = true) := fun _ _ => rfl
    have hlt : ∀ x y : XInt, (x < y) = (XInt.ltb x y = true) := fun _ _ => rfl
    cases a <;> cases b <;> simp [hle, hlt, XInt.leb, XInt.ltb] <;> omega
  decidableLE := XInt.decLE

/-- Embeds Python's two-argument `max` as used for the alpha update. -/
def XInt.max2 (a b : XInt) : XInt := if XInt.ltb a b then b else a

/-- Embeds Python's two-argument `min` as used for the beta update. -/
def XInt.min2 (a b : XInt) : XInt := if XInt.ltb b a then b else a

/-- Whether an `XInt` is one of the finite integer scores. -/
def XInt.isFin : XInt → Bool
  | XInt.int _ => true
  | _ => false

/-- Embeds the maximizing loop of `minimax`: the accumulator holds
`(best_value, best_move)` and a candidate replaces it only when its
value is strictly greater (`val > best_value`). -/
def mmFoldMax (f : GameState → XInt) :
    List (Int × GameState) → XInt × Option Int → XInt × Option Int
  | [], acc => acc
  | (move, child) :: rest, (best, bm) =>
      let val := f child
      if XInt.ltb best val then mmFoldMax f rest (val, some move)
      else mmFoldMax f rest (best, bm)

/-- Embeds the minimizing loop of `minimax`: a candidate replaces the
accumulator only when its value is strictly smaller (`val < best_value`). -/
def mmFoldMin (f : GameState → XInt) :
    List (Int × GameState) → XInt × Option Int → XInt × Option Int
  | [], acc => acc
  | (move, child) :: rest, (best, bm) =>
      let val := f child
      if XInt.ltb val best then mmFoldMin f rest (val, some move)
      else mmFoldMin f rest (best, bm)

/-- Embeds `minimax` (score and selected move; the global node counter is
treated separately by `minimaxC`). The Python recursion always decreases
`depth` by one, so `depth : Nat` is the structural fuel. -/
def minimax : GameState → Nat → Bool → XInt × Option Int
  | s, 0, _ => (XInt.int (evaluate s), none)
  | s, depth + 1, maximizing_player =>
      if is_terminal s then (XInt.int (evaluate s), none)
      else if maximizing_player then
        mmFoldMax (fun c => (minimax c depth false).1) (get_successors s)
          (XInt.negInf, none)
      else
        mmFoldMin (fun c => (minimax c depth true).1) (get_successors s)
          (XInt.posInf, none)

/-- Embeds the maximizing loop of `alpha_beta`: after each child the best
value/move is updated by the same strict rule as minimax, then
`alpha = max(alpha, best_value)`, and the loop breaks when `alpha >= beta`. -/
def abFoldMax (f : GameState → XInt → XInt → XInt) :
    List (Int × GameState) → XInt → XInt → XInt × Option Int → XInt × Option Int
  | [], _, _, acc => acc
  | (move, child) :: rest, alpha, beta, (best, bm) =>
      let val := f child alpha beta
      let acc' := if XInt.ltb best val then (val, some move) else (best, bm)
      let alpha' := XInt.max2 alpha acc'.1
      if XInt.leb beta alpha' then acc'
      else abFoldMax f rest alpha' beta acc'

/-- Embeds the minimizing loop of `alpha_beta`: `beta = min(beta, best_value)`
and the loop breaks when `beta <= alpha`. -/
def abFoldMin (f : GameState → XInt → XInt → XInt) :
    List (Int × GameState) → XInt → XInt → XInt × Option Int → XInt × Option Int
  | [], _, _, acc => acc
  | (move, child) :: rest, alpha, beta, (best, bm) =>
      let val := f child alpha beta
      let acc' := if XInt.ltb val best then (val, some move) else (best, bm)
      let beta' := XInt.min2 beta acc'.1
      if XInt.leb beta' alpha then acc'
      else abFoldMin f rest alpha beta' acc'

/-- Embeds `alpha_beta` (score and selected move). -/
def alpha_beta : GameState → Nat → XInt → XInt → Bool → XInt × Option Int
  | s, 0, _, _, _ => (XInt.int (evaluate s), none)
  | s, depth + 1, alpha, beta, maximizing_player =>
      if is_terminal s then (XInt.int (evaluate s), none)
      else if maximizing_player then
        abFoldMax (fun c a b => (alpha_beta c depth a b false).1)
          (get_successors s) alpha beta (XInt.negInf, none)
      else
        abFoldMin (fun c a b => (alpha_beta c depth a b true).1)
          (get_successors s) alpha beta (XInt.posInf, none)

/-- Embeds `computer_move`: dispatch on the algorithm string — exactly
`"Minimax"` runs minimax, every other string runs alpha-beta with the
full window; the chosen move is returned. -/
def computer_move (s : GameState) (algorithm : String) (depth : Nat) :
    Option Int :=
  if algorithm = "Minimax" then (minimax s depth true).2
  else (alpha_beta s depth XInt.negInf XInt.posInf true).2

/-- The player opposite to `p` (the turn-switch target in the source). -/
def otherPlayer (p : Player) : Player :=
  if p = Player.human then Player.computer else Player.human

/-- The score belonging to player `p` in state `s`. -/
def scoreOf (s : GameState) (p : Player) : Int :=
  if p = Player.human then s.human_score else s.computer_score

/-- Number of recursive `minimax` invocations (each of which executes
`NODES_VISITED += 1` once), including the base-case calls. -/
def mmNodes : GameState → Nat → Bool → Nat
  | _, 0, _ => 1
  | s, depth + 1, maximizing_player =>
      if is_terminal s then 1
      else
        1 + ((get_successors s).map
              (fun p => mmNodes p.2 depth (!maximizing_player))).sum

/-- The maximizing `minimax` loop with the global `NODES_VISITED` counter
threaded through the recursive calls. -/
def mmFoldMaxC (f : GameState → Nat → XInt × Nat) :
    List (Int × GameState) → XInt × Option Int → Nat → (XInt × Option Int) × Nat
  | [], acc, c => (acc, c)
  | (move, child) :: rest, (best, bm), c =>
      let vc := f child c
      if XInt.ltb best vc.1 then mmFoldMaxC f rest (vc.1, some move) vc.2
      else mmFoldMaxC f rest (best, bm) vc.2

/-- The minimizing `minimax` loop with the counter threaded through. -/
def mmFoldMinC (f : GameState → Nat → XInt × Nat) :
    List (Int × GameState) → XInt × Option Int → Nat → (XInt × Option Int) × Nat
  | [], acc, c => (acc, c)
  | (move, child) :: rest, (best, bm), c =>
      let vc := f child c
      if XInt.ltb vc.1 best then mmFoldMinC f rest (vc.1, some move) vc.2
      else mmFoldMinC f rest (best, bm) vc.2

/-- Embeds `minimax` together with the global `NODES_VISITED` counter:
the counter is incremented once on entry of every invocation and is
otherwise only threaded through. -/
def minimaxC : GameState → Nat → Bool → Nat → (XInt × Option Int) × Nat
  | s, 0, _, c => ((XInt.int (evaluate s), none), c + 1)
  | s, depth + 1, maximizing_player, c =>
      if is_terminal s then ((XInt.int (evaluate s), none), c + 1)
      else if maximizing_player then
        mmFoldMaxC (fun ch c' => ((minimaxC ch depth false c').1.1,
            (minimaxC ch depth false c').2))
          (get_successors s) (XInt.negInf, none) (c + 1)
      else
        mmFoldMinC (fun ch c' => ((minimaxC ch depth true c').1.1,
            (minimaxC ch depth true c').2))
          (get_successors s) (XInt.posInf, none) (c + 1)

/-- The maximizing `alpha_beta` loop with the counter threaded through. -/
def abFoldMaxC (f : GameState → XInt → XInt → Nat → XInt × Nat) :
    List (Int × GameState) → XInt → XInt → XInt × Option Int → Nat →
      (XInt × Option Int) × Nat
  | [], _, _, acc, c => (acc, c)
  | (move, child) :: rest, alpha, beta, (best, bm), c =>
      let vc := f child alpha beta c
      let acc' := if XInt.ltb best vc.1 then (vc.1, some move) else (best, bm)
      let alpha' := XInt.max2 alpha acc'.1
      if XInt.leb beta alpha' then (acc', vc.2)
      else abFoldMaxC f rest alpha' beta acc' vc.2

/-- The minimizing `alpha_beta` loop with the counter threaded through. -/
def abFoldMinC (f : GameState → XInt → XInt → Nat → XInt × Nat) :
    List (Int × GameState) → XInt → XInt → XInt × Option Int → Nat →
      (XInt × Option Int) × Nat
  | [], _, _, acc, c => (acc, c)
  | (move, child) :: rest, alpha, beta, (best, bm), c =>
      let vc := f child alpha beta c
      let acc' := if XInt.ltb vc.1 best then (vc.1, some move) else (best, bm)
      let beta' := XInt.min2 beta acc'.1
      if XInt.leb beta' alpha then (acc', vc.2)
      else abFoldMinC f rest alpha beta' acc' vc.2

/-- Embeds `alpha_beta` together with the global `NODES_VISITED` counter. -/
def alpha_betaC : GameState → Nat → XInt → XInt → Bool → Nat →
    (XInt × Option Int) × Nat
  | s, 0, _, _, _, c => ((XInt.int (evaluate s), none), c + 1)
  | s, depth + 1, alpha, beta, maximizing_player, c =>
      if is_terminal s then ((XInt.int (evaluate s), none), c + 1)
      else if maximizing_player then
        abFoldMaxC (fun ch a b c' => ((alpha_betaC ch depth a b false c').1.1,
            (alpha_betaC ch depth a b false c').2))
          (get_successors s) alpha beta (XInt.negInf, none) (c + 1)
      else
        abFoldMinC (fun ch a b c' => ((alpha_betaC ch depth a b true c').1.1,
            (alpha_betaC ch depth a b true c').2))
          (get_successors s) alpha beta (XInt.posInf, none) (c + 1)

/-- Embeds `computer_move` together with the global `NODES_VISITED`
counter: the function does not touch the counter itself, it only runs the
selected engine, which adds its node count on top of the prior value. -/
def computer_moveC (s : GameState) (algorithm : String) (depth : Nat)
    (c : Nat) : Option Int × Nat :=
  if algorithm = "Minimax" then
    let r := minimaxC s depth true c
    (r.1.2, r.2)
  else
    let r := alpha_betaC s depth XInt.negInf XInt.posInf true c
    (r.1.2, r.2)

/-- States reachable by legal transitions from a game start as configured
in the GUI: both scores zero, initial number from the spinbox range
`[8, 18]`, either starting player. -/
inductive Reachable : GameState → Prop where
  | start : ∀ (n : Int) (p : Player), 8 ≤ n → n ≤ 18 →
      Reachable ⟨n, 0, 0, p⟩
  | step : ∀ (s : GameState) (p : Int × GameState), Reachable s →
      p ∈ get_successors s → Reachable p.2

/-- Fail-soft relation between an alpha-beta result `v` computed in the
window `(a, b)` and the corresponding full minimax value `m`: a fail-low
result is an upper bound on `m`, a fail-high result is a lower bound, and
a result strictly inside the window is exact. -/
def Tri (v m a b : XInt) : Prop :=
  (v ≤ a → m ≤ v) ∧ (b ≤ v → v ≤ m) ∧ (a < v → v < b → v = m)

theorem XInt.lt_def (a b : XInt) : a < b ↔ XInt.ltb a b = true := Iff.rfl

theorem XInt.le_def (a b : XInt) : a ≤ b ↔ XInt.leb a b = true := Iff.rfl

theorem XInt.max2_eq_max (a b : XInt) : XInt.max2 a b = max a b := by
  unfold XInt.max2
  by_cases h : a < b
  · rw [if_pos ((XInt.lt_def a b).mp h), max_eq_right h.le]
  · rw [if_neg (fun hb => h ((XInt.lt_def a b).mpr hb)), max_eq_left (not_lt.mp h)]

theorem XInt.min2_eq_min (a b : XInt) : XInt.min2 a b = min a b := by
  unfold XInt.min2
  by_cases h : b < a
  · rw [if_pos ((XInt.lt_def b a).mp h), min_eq_right h.le]
  · rw [if_neg (fun hb => h ((XInt.lt_def b a).mpr hb)), min_eq_left (not_lt.mp h)]

theorem XInt.negInf_le (a : XInt) : XInt.negInf ≤ a := by
  cases a <;> simp [XInt.le_def, XInt.leb, XInt.ltb]

theorem XInt.le_posInf (a : XInt) : a ≤ XInt.posInf := by
  cases a <;> simp [XInt.le_def, XInt.leb, XInt.ltb]

theorem XInt.negInf_lt_of_isFin (a : XInt) (h : a.isFin = true) :
    XInt.negInf < a := by
  cases a <;> simp_all [XInt.isFin, XInt.lt_def, XInt.ltb]

theorem XInt.lt_posInf_of_isFin (a : XInt) (h : a.isFin = true) :
    a < XInt.posInf := by
  cases a <;> simp_all [XInt.isFin, XInt.lt_def, XInt.ltb]

theorem XInt.negInf_lt_posInf : XInt.negInf < XInt.posInf := by
  simp [XInt.lt_def, XInt.ltb]

theorem XInt.eq_posInf_of_le (a : XInt) (h : XInt.posInf ≤ a) :
    a = XInt.posInf :=
  le_antisymm (XInt.le_posInf a) h

theorem XInt.eq_negInf_of_le (a : XInt) (h : a ≤ XInt.negInf) :
    a = XInt.negInf :=
  le_antisymm h (XInt.negInf_le a)

theorem succ_child_spec (s : GameState) (m : Int) :
    (succ_child s m).current_number = s.current_number * m ∧
    (s.current_number * m % 2 = 0 →
      scoreOf (succ_child s m) (otherPlayer s.current_player) =
        scoreOf s (otherPlayer s.current_player) - 1 ∧
      scoreOf (succ_child s m) s.current_player = scoreOf s s.current_player) ∧
    (s.current_number * m % 2 ≠ 0 →
      scoreOf (succ_child s m) s.current_player = scoreOf s s.current_player + 1 ∧
      scoreOf (succ_child s m) (otherPlayer s.current_player) =
        scoreOf s (otherPlayer s.current_player)) ∧
    (s.current_number * m ≥ 1200 →
      (succ_child s m).current_player = s.current_player) ∧
    (s.current_number * m < 1200 →
      (succ_child s m).current_player = otherPlayer s.current_player) := by
  rcases s with ⟨n, hs, cs, p⟩
  cases p <;> by_cases h2 : n * m % 2 = 0 <;> by_cases h12 : n * m < 1200 <;>
    simp [succ_child, scoreOf, otherPlayer, h2, h12, beq_iff_eq]

theorem apply_move_fst (s : GameState) (m : Int) (go : Bool) :
    (apply_move s m go).1 = succ_child s m := by
  rcases s with ⟨n, hs, cs, p⟩
  cases p <;> simp only [apply_move, succ_child, beq_iff_eq] <;>
    split_ifs <;> simp_all <;> omega

theorem apply_move_snd (s : GameState) (m : Int) (go : Bool) :
    (apply_move s m go).2 = if s.current_number * m ≥ 1200 then true else go := by
  rcases s with ⟨n, hs, cs, p⟩
  cases p <;> by_cases h2 : n * m % 2 = 0 <;>
    by_cases h12 : (1200 : Int) ≤ n * m <;>
    simp [apply_move, h2, h12, beq_iff_eq]

theorem get_successors_of_terminal (s : GameState) (h : is_terminal s = true) :
    get_successors s = [] := by
  simp [get_successors, h]

theorem get_successors_of_nonterminal (s : GameState)
    (h : is_terminal s = false) :
    get_successors s =
      [(2, succ_child s 2), (3, succ_child s 3), (4, succ_child s 4)] := by
  simp [get_successors, h]

theorem mem_get_successors (s : GameState) (mv : Int) (c : GameState)
    (hp : (mv, c) ∈ get_successors s) :
    is_terminal s = false ∧ (mv = 2 ∨ mv = 3 ∨ mv = 4) ∧ c = succ_child s mv := by
  by_cases h : is_terminal s = true
  · rw [get_successors_of_terminal s h] at hp
    simp at hp
  · have h' : is_terminal s = false := by simpa using h
    rw [get_successors_of_nonterminal s h'] at hp
    simp only [List.mem_cons, List.not_mem_nil, or_false, Prod.mk.injEq] at hp
    rcases hp with ⟨rfl, rfl⟩ | ⟨rfl, rfl⟩ | ⟨rfl, rfl⟩ <;> simp [h']

theorem succ_child_delta (s : GameState) (m : Int) :
    ((succ_child s m).human_score - s.human_score).natAbs +
      ((succ_child s m).computer_score - s.computer_score).natAbs = 1 := by
  rcases s with ⟨n, hs, cs, p⟩
  cases p <;> simp only [succ_child, beq_iff_eq] <;> split_ifs <;> simp

/-- C2: a non-terminal state has exactly three successors, one per
multiplier in `{2, 3, 4}`, each with `new_number = current_number * m`;
a terminal state has none. -/
theorem C2_successors_shape (s : GameState) :
    (is_terminal s = false →
      (get_successors s).map Prod.fst = [2, 3, 4] ∧
      (get_successors s).length = 3 ∧
      ∀ p ∈ get_successors s, p.2.current_number = s.current_number * p.1) ∧
    (is_terminal s = true → get_successors s = []) := by
  constructor
  · intro h
    refine ⟨by rw [get_successors_of_nonterminal s h]; rfl, by
      rw [get_successors_of_nonterminal s h]; rfl, ?_⟩
    rintro ⟨mv, c⟩ hp
    obtain ⟨-, -, rfl⟩ := mem_get_successors s mv c hp
    exact (succ_child_spec s mv).1
  · exact get_successors_of_terminal s

theorem C2_successors_shape_witness :
    ((get_successors ⟨8, 0, 0, Player.human⟩).map Prod.fst = [2, 3, 4] ∧
      (get_successors ⟨8, 0, 0, Player.human⟩).length = 3) ∧
    get_successors ⟨1200, 3, 4, Player.computer⟩ = [] :=
  ⟨⟨((C2_successors_shape ⟨8, 0, 0, Player.human⟩).1 (by decide)).1,
    ((C2_successors_shape ⟨8, 0, 0, Player.human⟩).1 (by decide)).2.1⟩,
   (C2_successors_shape ⟨1200, 3, 4, Player.computer⟩).2 (by decide)⟩

/-- C3: in every transition (successor of `get_successors` and every
`apply_move` step) exactly one scoring rule fires, by parity of the new
number: even takes one point from the mover's opponent, odd gives the
mover one point; the other score is unchanged, so the total score
movement has magnitude exactly 1. -/
theorem C3_parity_scoring (s : GameState) :
    (∀ p ∈ get_successors s,
      (p.2.current_number % 2 = 0 →
        scoreOf p.2 (otherPlayer s.current_player) =
          scoreOf s (otherPlayer s.current_player) - 1 ∧
        scoreOf p.2 s.current_player = scoreOf s s.current_player) ∧
      (p.2.current_number % 2 ≠ 0 →
        scoreOf p.2 s.current_player = scoreOf s s.current_player + 1 ∧
        scoreOf p.2 (otherPlayer s.current_player) =
          scoreOf s (otherPlayer s.current_player)) ∧
      (p.2.human_score - s.human_score).natAbs +
        (p.2.computer_score - s.computer_score).natAbs = 1) ∧
    (∀ (m : Int) (go : Bool),
      (s.current_number * m % 2 = 0 →
        scoreOf (apply_move s m go).1 (otherPlayer s.current_player) =
          scoreOf s (otherPlayer s.current_player) - 1 ∧
        scoreOf (apply_move s m go).1 s.current_player =
          scoreOf s s.current_player) ∧
      (s.current_number * m % 2 ≠ 0 →
        scoreOf (apply_move s m go).1 s.current_player =
          scoreOf s s.current_player + 1 ∧
        scoreOf (apply_move s m go).1 (otherPlayer s.current_player) =
          scoreOf s (otherPlayer s.current_player)) ∧
      ((apply_move s m go).1.human_score - s.human_score).natAbs +
        ((apply_move s m go).1.computer_score - s.computer_score).natAbs
          = 1) := by
  constructor
  · rintro ⟨mv, c⟩ hp
    obtain ⟨-, -, rfl⟩ := mem_get_successors s mv c hp
    have hnum := (succ_child_spec s mv).1
    refine ⟨?_, ?_, succ_child_delta s mv⟩
    · intro hpar
      rw [hnum] at hpar
      exact (succ_child_spec s mv).2.1 hpar
    · intro hpar
      rw [hnum] at hpar
      exact (succ_child_spec s mv).2.2.1 hpar
  · intro m go
    rw [apply_move_fst s m go]
    exact ⟨(succ_child_spec s m).2.1, (succ_child_spec s m).2.2.1,
      succ_child_delta s m⟩

theorem C3_parity_scoring_witness :
    ((8 : Int) * 3 % 2 = 0 ∧
      scoreOf (apply_move ⟨8, 0, 0, Player.human⟩ 3 false).1
        (otherPlayer Player.human) = scoreOf ⟨8, 0, 0, Player.human⟩
        (otherPlayer Player.human) - 1) ∧
    ((3 : Int) * 3 % 2 ≠ 0 ∧
      scoreOf (apply_move ⟨3, 0, 0, Player.human⟩ 3 false).1 Player.human =
        scoreOf ⟨3, 0, 0, Player.human⟩ Player.human + 1) :=
  ⟨⟨by decide, (((C3_parity_scoring ⟨8, 0, 0, Player.human⟩).2 3 false).1
      (by decide)).1⟩,
   ⟨by decide, (((C3_parity_scoring ⟨3, 0, 0, Player.human⟩).2 3 false).2.1
      (by decide)).1⟩⟩

/-- C5: `evaluate` returns the sentinel `-999999` on a terminal state the
computer is losing, `999999` on one it is winning, `0` on a terminal tie,
and the score difference `computer_score - human_score` otherwise. -/
theorem C5_evaluate_spec (s : GameState) :
    (is_terminal s = true →
      (s.human_score > s.computer_score → evaluate s = -999999) ∧
      (s.computer_score > s.human_score → evaluate s = 999999) ∧
      (s.human_score = s.computer_score → evaluate s = 0)) ∧
    (is_terminal s = false →
      evaluate s = s.computer_score - s.human_score) := by
  constructor
  · intro h
    rw [evaluate, if_pos h]
    refine ⟨fun hc => ?_, fun hc => ?_, fun hc => ?_⟩ <;> split_ifs <;> omega
  · intro h
    rw [evaluate, if_neg (by simp [h])]

theorem C5_evaluate_spec_witness :
    (is_terminal ⟨1300, 2, 5, Player.human⟩ = true ∧
      (5 : Int) > 2 ∧ evaluate ⟨1300, 2, 5, Player.human⟩ = 999999) ∧
    (is_terminal ⟨20, 2, 5, Player.human⟩ = false ∧
      evaluate ⟨20, 2, 5, Player.human⟩ = 5 - 2) :=
  ⟨⟨by decide, by decide,
    ((C5_evaluate_spec ⟨1300, 2, 5, Player.human⟩).1 (by decide)).2.1
      (by decide)⟩,
   ⟨by decide, (C5_evaluate_spec ⟨20, 2, 5, Player.human⟩).2 (by decide)⟩⟩

/-- C6: in every transition the turn does not switch when the new number
reaches 1200, and flips otherwise; in particular from 600 with move 2 the
successor has number 1200, is terminal, and keeps the mover to move. -/
theorem C6_turn_rule (s : GameState) :
    (∀ p ∈ get_successors s,
      (p.2.current_number ≥ 1200 → p.2.current_player = s.current_player) ∧
      (p.2.current_number < 1200 →
        p.2.current_player = otherPlayer s.current_player)) ∧
    (∀ (m : Int) (go : Bool),
      (s.current_number * m ≥ 1200 →
        (apply_move s m go).1.current_player = s.current_player ∧
        (apply_move s m go).2 = true) ∧
      (s.current_number * m < 1200 →
        (apply_move s m go).1.current_player = otherPlayer s.current_player ∧
        (apply_move s m go).2 = go)) ∧
    (∀ (hs cs : Int) (pl : Player),
      (succ_child ⟨600, hs, cs, pl⟩ 2).current_number = 1200 ∧
      is_terminal (succ_child ⟨600, hs, cs, pl⟩ 2) = true ∧
      (succ_child ⟨600, hs, cs, pl⟩ 2).current_player = pl) := by
  refine ⟨?_, ?_, ?_⟩
  · rintro ⟨mv, c⟩ hp
    obtain ⟨-, -, rfl⟩ := mem_get_successors s mv c hp
    have hnum := (succ_child_spec s mv).1
    constructor
    · intro hge
      rw [hnum] at hge
      exact (succ_child_spec s mv).2.2.2.1 hge
    · intro hlt
      rw [hnum] at hlt
      exact (succ_child_spec s mv).2.2.2.2 hlt
  · intro m go
    rw [apply_move_fst s m go, apply_move_snd s m go]
    constructor
    · intro hge
      exact ⟨(succ_child_spec s m).2.2.2.1 hge, by rw [if_pos hge]⟩
    · intro hlt
      refine ⟨(succ_child_spec s m).2.2.2.2 hlt, by rw [if_neg (by omega)]⟩
  · intro hs cs pl
    have hnum := (succ_child_spec (⟨600, hs, cs, pl⟩ : GameState) 2).1
    have h1200 : (600 : Int) * 2 = 1200 := by norm_num
    refine ⟨by rw [hnum, h1200], ?_, ?_⟩
    · rw [is_terminal, hnum, h1200]
      decide
    · exact (succ_child_spec (⟨600, hs, cs, pl⟩ : GameState) 2).2.2.2.1
        (by norm_num)

theorem C6_turn_rule_witness :
    ((succ_child ⟨600, 1, 2, Player.human⟩ 2).current_number = 1200 ∧
      is_terminal (succ_child ⟨600, 1, 2, Player.human⟩ 2) = true ∧
      (succ_child ⟨600, 1, 2, Player.human⟩ 2).current_player =
        Player.human) ∧
    ((8 : Int) * 3 < 1200 ∧
      (apply_move ⟨8, 0, 0, Player.human⟩ 3 false).1.current_player =
        otherPlayer Player.human) :=
  ⟨(C6_turn_rule ⟨600, 1, 2, Player.human⟩).2.2 1 2 Player.human,
   ⟨by decide,
    (((C6_turn_rule ⟨8, 0, 0, Player.human⟩).2.1 3 false).2 (by decide)).1⟩⟩

/-- C7: from a state with positive number every successor strictly
increases the number (indeed at least doubles it), since every legal
multiplier is at least 2. -/
theorem C7_monotonic (s : GameState) (hpos : 0 < s.current_number) :
    ∀ p ∈ get_successors s,
      2 ≤ p.1 ∧ s.current_number < p.2.current_number ∧
      2 * s.current_number ≤ p.2.current_number := by
  rintro ⟨mv, c⟩ hp
  obtain ⟨-, hmv, rfl⟩ := mem_get_successors s mv c hp
  have hnum := (succ_child_spec s mv).1
  rcases hmv with rfl | rfl | rfl <;> simp only [hnum] <;>
    constructor <;> omega

theorem C7_monotonic_witness :
    0 < (8 : Int) ∧
    ((2 : Int), succ_child ⟨8, 0, 0, Player.human⟩ 2) ∈
      get_successors ⟨8, 0, 0, Player.human⟩ ∧
    (2 ≤ (2 : Int) ∧ (8 : Int) < (succ_child ⟨8, 0, 0, Player.human⟩ 2).current_number ∧
      2 * (8 : Int) ≤ (succ_child ⟨8, 0, 0, Player.human⟩ 2).current_number) :=
  ⟨by decide, by decide,
   C7_monotonic ⟨8, 0, 0, Player.human⟩ (by decide)
     ((2 : Int), succ_child ⟨8, 0, 0, Player.human⟩ 2) (by decide)⟩

theorem minimax_zero (s : GameState) (b : Bool) :
    minimax s 0 b = (XInt.int (evaluate s), none) := rfl

theorem minimax_terminal (s : GameState) (d : Nat) (b : Bool)
    (h : is_terminal s = true) :
    minimax s d b = (XInt.int (evaluate s), none) := by
  cases d <;> simp [minimax, h]

theorem minimax_succ_max (s : GameState) (d : Nat)
    (h : is_terminal s = false) :
    minimax s (d + 1) true =
      mmFoldMax (fun c => (minimax c d false).1) (get_successors s)
        (XInt.negInf, none) := by
  simp [minimax, h]

theorem minimax_succ_min (s : GameState) (d : Nat)
    (h : is_terminal s = false) :
    minimax s (d + 1) false =
      mmFoldMin (fun c => (minimax c d true).1) (get_successors s)
        (XInt.posInf, none) := by
  simp [minimax, h]

theorem mmFoldMax_spec (f : GameState → XInt) :
    ∀ (l : List (Int × GameState)) (acc : XInt) (am : Option Int),
      acc ≤ (mmFoldMax f l (acc, am)).1 ∧
      (∀ p ∈ l, f p.2 ≤ (mmFoldMax f l (acc, am)).1) ∧
      (((mmFoldMax f l (acc, am)).1 = acc ∧
          (mmFoldMax f l (acc, am)).2 = am ∧ ∀ p ∈ l, f p.2 ≤ acc) ∨
        ∃ l₁ p l₂, l = l₁ ++ p :: l₂ ∧
          (mmFoldMax f l (acc, am)).2 = some p.1 ∧
          f p.2 = (mmFoldMax f l (acc, am)).1 ∧
          acc < (mmFoldMax f l (acc, am)).1 ∧
          ∀ q ∈ l₁, f q.2 < (mmFoldMax f l (acc, am)).1) := by
  intro l
  induction l with
  | nil =>
      intro acc am
      exact ⟨le_refl _, by simp, Or.inl ⟨rfl, rfl, by simp⟩⟩
  | cons hd rest ih =>
      rcases hd with ⟨mv, c⟩
      intro acc am
      by_cases hlt : acc < f c
      · have hb : XInt.ltb acc (f c) = true := (XInt.lt_def _ _).mp hlt
        have hunf : mmFoldMax f ((mv, c) :: rest) (acc, am) =
            mmFoldMax f rest (f c, some mv) := by
          simp [mmFoldMax, hb]
        obtain ⟨ih1, ih2, ih3⟩ := ih (f c) (some mv)
        rw [hunf]
        refine ⟨le_trans hlt.le ih1, ?_, ?_⟩
        · intro p hp
          rcases List.mem_cons.mp hp with rfl | hp'
          · exact ih1
          · exact ih2 p hp'
        · rcases ih3 with ⟨he, hm, hall⟩ | ⟨l₁, p, l₂, heq, hm2, hfp, hacc2, hl1⟩
          · refine Or.inr ⟨[], (mv, c), rest, by simp, hm, he.symm, ?_, by simp⟩
            rw [he]
            exact hlt
          · refine Or.inr ⟨(mv, c) :: l₁, p, l₂, by rw [heq]; rfl, hm2, hfp,
              lt_of_lt_of_le hlt ih1, ?_⟩
            intro q hq
            rcases List.mem_cons.mp hq with rfl | hq'
            · exact hacc2
            · exact hl1 q hq'
      · have hb : XInt.ltb acc (f c) = false := by
          rw [← Bool.not_eq_true]
          exact fun hb => hlt ((XInt.lt_def _ _).mpr hb)
        have hfc : f c ≤ acc := not_lt.mp hlt
        have hunf : mmFoldMax f ((mv, c) :: rest) (acc, am) =
            mmFoldMax f rest (acc, am) := by
          simp [mmFoldMax, hb]
        obtain ⟨ih1, ih2, ih3⟩ := ih acc am
        rw [hunf]
        refine ⟨ih1, ?_, ?_⟩
        · intro p hp
          rcases List.mem_cons.mp hp with rfl | hp'
          · exact le_trans hfc ih1
          · exact ih2 p hp'
        · rcases ih3 with ⟨he, hm, hall⟩ | ⟨l₁, p, l₂, heq, hm2, hfp, hacc2, hl1⟩
          · refine Or.inl ⟨he, hm, ?_⟩
            intro p hp
            rcases List.mem_cons.mp hp with rfl | hp'
            · exact hfc
            · exact hall p hp'
          · refine Or.inr ⟨(mv, c) :: l₁, p, l₂, by rw [heq]; rfl, hm2, hfp,
              hacc2, ?_⟩
            intro q hq
            rcases List.mem_cons.mp hq with rfl | hq'
            · exact lt_of_le_of_lt hfc hacc2
            · exact hl1 q hq'

theorem mmFoldMin_spec (f : GameState → XInt) :
    ∀ (l : List (Int × GameState)) (acc : XInt) (am : Option Int),
      (mmFoldMin f l (acc, am)).1 ≤ acc ∧
      (∀ p ∈ l, (mmFoldMin f l (acc, am)).1 ≤ f p.2) ∧
      (((mmFoldMin f l (acc, am)).1 = acc ∧
          (mmFoldMin f l (acc, am)).2 = am ∧ ∀ p ∈ l, acc ≤ f p.2) ∨
        ∃ l₁ p l₂, l = l₁ ++ p :: l₂ ∧
          (mmFoldMin f l (acc, am)).2 = some p.1 ∧
          f p.2 = (mmFoldMin f l (acc, am)).1 ∧
          (mmFoldMin f l (acc, am)).1 < acc ∧
          ∀ q ∈ l₁, (mmFoldMin f l (acc, am)).1 < f q.2) := by
  intro l
  induction l with
  | nil =>
      intro acc am
      exact ⟨le_refl _, by simp, Or.inl ⟨rfl, rfl, by simp⟩⟩
  | cons hd rest ih =>
      rcases hd with ⟨mv, c⟩
      intro acc am
      by_cases hlt : f c < acc
      · have hb : XInt.ltb (f c) acc = true := (XInt.lt_def _ _).mp hlt
        have hunf : mmFoldMin f ((mv, c) :: rest) (acc, am) =
            mmFoldMin f rest (f c, some mv) := by
          simp [mmFoldMin, hb]
        obtain ⟨ih1, ih2, ih3⟩ := ih (f c) (some mv)
        rw [hunf]
        refine ⟨le_trans ih1 hlt.le, ?_, ?_⟩
        · intro p hp
          rcases List.mem_cons.mp hp with rfl | hp'
          · exact ih1
          · exact ih2 p hp'
        · rcases ih3 with ⟨he, hm, hall⟩ | ⟨l₁, p, l₂, heq, hm2, hfp, hacc2, hl1⟩
          · refine Or.inr ⟨[], (mv, c), rest, by simp, hm, he.symm, ?_, by simp⟩
            rw [he]
            exact hlt
          · refine Or.inr ⟨(mv, c) :: l₁, p, l₂, by rw [heq]; rfl, hm2, hfp,
              lt_of_le_of_lt ih1 hlt, ?_⟩
            intro q hq
            rcases List.mem_cons.mp hq with rfl | hq'
            · exact hacc2
            · exact hl1 q hq'
      · have hb : XInt.ltb (f c) acc = false := by
          rw [← Bool.not_eq_true]
          exact fun hb => hlt ((XInt.lt_def _ _).mpr hb)
        have hfc : acc ≤ f c := not_lt.mp hlt
        have hunf : mmFoldMin f ((mv, c) :: rest) (acc, am) =
            mmFoldMin f rest (acc, am) := by
          simp [mmFoldMin, hb]
        obtain ⟨ih1, ih2, ih3⟩ := ih acc am
        rw [hunf]
        refine ⟨ih1, ?_, ?_⟩
        · intro p hp
          rcases List.mem_cons.mp hp with rfl | hp'
          · exact le_trans ih1 hfc
          · exact ih2 p hp'
        · rcases ih3 with ⟨he, hm, hall⟩ | ⟨l₁, p, l₂, heq, hm2, hfp, hacc2, hl1⟩
          · refine Or.inl ⟨he, hm, ?_⟩
            intro p hp
            rcases List.mem_cons.mp hp with rfl | hp'
            · exact hfc
            · exact hall p hp'
          · refine Or.inr ⟨(mv, c) :: l₁, p, l₂, by rw [heq]; rfl, hm2, hfp,
              hacc2, ?_⟩
            intro q hq
            rcases List.mem_cons.mp hq with rfl | hq'
            · exact lt_of_lt_of_le hacc2 hfc
            · exact hl1 q hq'

theorem minimax_isFin : ∀ (d : Nat) (s : GameState) (b : Bool),
    ((minimax s d b).1).isFin = true := by
  intro d
  induction d with
  | zero => intro s b; rfl
  | succ d ih =>
      intro s b
      by_cases ht : is_terminal s = true
      · rw [minimax_terminal s (d + 1) b ht]
        rfl
      · have h' : is_terminal s = false := by simpa using ht
        have hne : get_successors s ≠ [] := by
          rw [get_successors_of_nonterminal s h']
          simp
        cases b
        · rw [minimax_succ_min s d h']
          rcases (mmFoldMin_spec (fun c => (minimax c d true).1)
              (get_successors s) XInt.posInf none).2.2 with
            ⟨he, hm, hall⟩ | ⟨l₁, p, l₂, heq, hm2, hfp, hacc2, hl1⟩
          · exfalso
            rcases List.exists_mem_of_ne_nil _ hne with ⟨p, hp⟩
            have h1 := hall p hp
            have h2 := XInt.lt_posInf_of_isFin _ (ih p.2 true)
            exact absurd h1 (not_le.mpr h2)
          · rw [← hfp]
            exact ih p.2 true
        · rw [minimax_succ_max s d h']
          rcases (mmFoldMax_spec (fun c => (minimax c d false).1)
              (get_successors s) XInt.negInf none).2.2 with
            ⟨he, hm, hall⟩ | ⟨l₁, p, l₂, heq, hm2, hfp, hacc2, hl1⟩
          · exfalso
            rcases List.exists_mem_of_ne_nil _ hne with ⟨p, hp⟩
            have h1 := hall p hp
            have h2 := XInt.negInf_lt_of_isFin _ (ih p.2 false)
            exact absurd h1 (not_le.mpr h2)
          · rw [← hfp]
            exact ih p.2 false

/-- C4: `minimax` returns `(evaluate s, no move)` at depth 0 or on a
terminal state without touching successors; otherwise the maximizing
branch returns the greatest child score and the minimizing branch the
smallest, the first move achieving it winning ties (every earlier
candidate is strictly worse); for a non-terminal state at depth ≥ 1 the
returned move is always an actual multiplier in `{2, 3, 4}`. -/
theorem C4_minimax_contract (s : GameState) (d : Nat) (b : Bool) :
    ((d = 0 ∨ is_terminal s = true) →
      minimax s d b = (XInt.int (evaluate s), none)) ∧
    (∀ d', d = d' + 1 → is_terminal s = false →
      (b = true →
        (∀ p ∈ get_successors s,
          (minimax p.2 d' false).1 ≤ (minimax s d b).1) ∧
        ∃ l₁ p l₂, get_successors s = l₁ ++ p :: l₂ ∧
          (minimax s d b).2 = some p.1 ∧
          (minimax p.2 d' false).1 = (minimax s d b).1 ∧
          ∀ q ∈ l₁, (minimax q.2 d' false).1 < (minimax s d b).1) ∧
      (b = false →
        (∀ p ∈ get_successors s,
          (minimax s d b).1 ≤ (minimax p.2 d' true).1) ∧
        ∃ l₁ p l₂, get_successors s = l₁ ++ p :: l₂ ∧
          (minimax s d b).2 = some p.1 ∧
          (minimax p.2 d' true).1 = (minimax s d b).1 ∧
          ∀ q ∈ l₁, (minimax s d b).1 < (minimax q.2 d' true).1) ∧
      ∃ m, (minimax s d b).2 = some m ∧ (m = 2 ∨ m = 3 ∨ m = 4)) := by
  constructor
  · rintro (rfl | ht)
    · exact minimax_zero s b
    · exact minimax_terminal s d b ht
  · rintro d' rfl h'
    have hne : get_successors s ≠ [] := by
      rw [get_successors_of_nonterminal s h']
      simp
    cases b with
    | true =>
        rw [minimax_succ_max s d' h']
        obtain ⟨h1, h2, h3⟩ := mmFoldMax_spec (fun c => (minimax c d' false).1)
          (get_successors s) XInt.negInf none
        rcases h3 with ⟨he, hm, hall⟩ | ⟨l₁, p, l₂, heq, hm2, hfp, hacc2, hl1⟩
        · exfalso
          rcases List.exists_mem_of_ne_nil _ hne with ⟨q, hq⟩
          exact absurd (hall q hq) (not_le.mpr
            (XInt.negInf_lt_of_isFin _ (minimax_isFin d' q.2 false)))
        · have hp : p ∈ get_successors s := by
            rw [heq]
            exact List.mem_append_right l₁ (List.mem_cons_self p l₂)
          refine ⟨fun _ => ⟨h2, l₁, p, l₂, heq, hm2, hfp, hl1⟩,
            fun hb => absurd hb (by decide), ?_⟩
          rcases p with ⟨mv, c⟩
          obtain ⟨-, hmv, -⟩ := mem_get_successors s mv c hp
          exact ⟨mv, hm2, hmv⟩
    | false =>
        rw [minimax_succ_min s d' h']
        obtain ⟨h1, h2, h3⟩ := mmFoldMin_spec (fun c => (minimax c d' true).1)
          (get_successors s) XInt.posInf none
        rcases h3 with ⟨he, hm, hall⟩ | ⟨l₁, p, l₂, heq, hm2, hfp, hacc2, hl1⟩
        · exfalso
          rcases List.exists_mem_of_ne_nil _ hne with ⟨q, hq⟩
          exact absurd (hall q hq) (not_le.mpr
            (XInt.lt_posInf_of_isFin _ (minimax_isFin d' q.2 true)))
        · have hp : p ∈ get_successors s := by
            rw [heq]
            exact List.mem_append_right l₁ (List.mem_cons_self p l₂)
          refine ⟨fun hb => absurd hb (by decide),
            fun _ => ⟨h2, l₁, p, l₂, heq, hm2, hfp, hl1⟩, ?_⟩
          rcases p with ⟨mv, c⟩
          obtain ⟨-, hmv, -⟩ := mem_get_successors s mv c hp
          exact ⟨mv, hm2, hmv⟩

theorem C4_minimax_contract_witness :
    minimax ⟨1300, 0, 0, Player.human⟩ 5 true =
      (XInt.int (evaluate ⟨1300, 0, 0, Player.human⟩), none) ∧
    ∃ m, (minimax ⟨8, 0, 0, Player.human⟩ 1 true).2 = some m ∧
      (m = 2 ∨ m = 3 ∨ m = 4) :=
  ⟨(C4_minimax_contract ⟨1300, 0, 0, Player.human⟩ 5 true).1
     (Or.inr (by decide)),
   ((C4_minimax_contract ⟨8, 0, 0, Player.human⟩ 1 true).2 0 rfl
     (by decide)).2.2⟩

theorem reachable_invariant (s : GameState) (h : Reachable s) :
    s.human_score.natAbs + s.computer_score.natAbs ≤ 9 ∧
    (is_terminal s = false →
      (8 : Int) * 2 ^ (s.human_score.natAbs + s.computer_score.natAbs) ≤
        s.current_number) := by
  induction h with
  | start n p h8 h18 =>
      constructor
      · simp
      · intro _
        simpa using h8
  | step s p hs hp ih =>
      rcases p with ⟨mv, c⟩
      obtain ⟨hterm, hmv, rfl⟩ := mem_get_successors s mv c hp
      obtain ⟨ihsum, ihnum⟩ := ih
      dsimp only
      have hnum8 : (8 : Int) *
          2 ^ (s.human_score.natAbs + s.computer_score.natAbs) ≤
          s.current_number := ihnum hterm
      have hlt : s.current_number < 1200 := by
        have hn : ¬ (1200 ≤ s.current_number) := by
          simpa [is_terminal] using hterm
        omega
      have hsum7 : s.human_score.natAbs + s.computer_score.natAbs ≤ 7 := by
        by_contra hc
        push_neg at hc
        have h8le : (8 : ℕ) ≤ s.human_score.natAbs + s.computer_score.natAbs :=
          hc
        have hpow : (2 : Int) ^ (8 : ℕ) ≤
            2 ^ (s.human_score.natAbs + s.computer_score.natAbs) :=
          pow_le_pow_right₀ (by norm_num) h8le
        have h2048 : (8 : Int) * 2 ^ (8 : ℕ) ≤
            8 * 2 ^ (s.human_score.natAbs + s.computer_score.natAbs) := by
          linarith
        norm_num at h2048
        omega
      have hdelta := succ_child_delta s mv
      have hsum' : (succ_child s mv).human_score.natAbs +
          (succ_child s mv).computer_score.natAbs ≤
          s.human_score.natAbs + s.computer_score.natAbs + 1 := by
        omega
      refine ⟨by omega, ?_⟩
      intro _
      have hpow2 : (0 : Int) <
          2 ^ (s.human_score.natAbs + s.computer_score.natAbs) :=
        pow_pos (by norm_num) _
      have hpos : 0 < s.current_number := by nlinarith
      have hnum := (succ_child_spec s mv).1
      have h2n : 2 * s.current_number ≤ (succ_child s mv).current_number := by
        rcases hmv with rfl | rfl | rfl <;> rw [hnum] <;> omega
      have hstep : (8 : Int) * 2 ^ ((succ_child s mv).human_score.natAbs +
            (succ_child s mv).computer_score.natAbs) ≤
          8 * 2 ^ (s.human_score.natAbs + s.computer_score.natAbs + 1) := by
        have := pow_le_pow_right₀ (a := (2 : Int)) (by norm_num) hsum'
        linarith
      have hdouble : (8 : Int) *
            2 ^ (s.human_score.natAbs + s.computer_score.natAbs + 1) =
          2 * (8 * 2 ^ (s.human_score.natAbs + s.computer_score.natAbs)) := by
        ring
      calc (8 : Int) * 2 ^ ((succ_child s mv).human_score.natAbs +
              (succ_child s mv).computer_score.natAbs)
          ≤ 8 * 2 ^ (s.human_score.natAbs + s.computer_score.natAbs + 1) :=
            hstep
        _ = 2 * (8 * 2 ^ (s.human_score.natAbs + s.computer_score.natAbs)) :=
            hdouble
        _ ≤ 2 * s.current_number := by linarith
        _ ≤ (succ_child s mv).current_number := h2n

/-- C8: on every state reachable from a legal game start (scores zero,
initial number in `[8, 18]`) the score difference stays far below the
terminal sentinel magnitude `999999`, so sentinel evaluations always
outrank non-terminal heuristic evaluations. -/
theorem C8_terminal_dominance (s : GameState) (h : Reachable s) :
    (s.computer_score - s.human_score).natAbs < 999999 ∧
    (is_terminal s = false →
      -999999 < evaluate s ∧ evaluate s < 999999) := by
  have hinv := (reachable_invariant s h).1
  constructor
  · omega
  · intro ht
    rw [evaluate, if_neg (by simp [ht])]
    omega

theorem C8_terminal_dominance_witness :
    Reachable ⟨8, 0, 0, Player.human⟩ ∧
    (((⟨8, 0, 0, Player.human⟩ : GameState).computer_score -
      (⟨8, 0, 0, Player.human⟩ : GameState).human_score).natAbs < 999999) :=
  ⟨Reachable.start 8 Player.human (by norm_num) (by norm_num),
   (C8_terminal_dominance ⟨8, 0, 0, Player.human⟩
     (Reachable.start 8 Player.human (by norm_num) (by norm_num))).1⟩

theorem mmFoldMaxC_spec (f : GameState → Nat → XInt × Nat)
    (g : GameState → XInt) (n : GameState → Nat)
    (hf : ∀ ch c, f ch c = (g ch, c + n ch)) :
    ∀ (l : List (Int × GameState)) (acc : XInt × Option Int) (c : Nat),
      mmFoldMaxC f l acc c =
        (mmFoldMax g l acc, c + (l.map (fun p => n p.2)).sum) := by
  intro l
  induction l with
  | nil =>
      rintro ⟨best, bm⟩ c
      simp [mmFoldMaxC, mmFoldMax]
  | cons hd rest ih =>
      rcases hd with ⟨mv, ch⟩
      rintro ⟨best, bm⟩ c
      have hfc := hf ch c
      simp only [mmFoldMaxC, mmFoldMax, hfc]
      by_cases hb : XInt.ltb best (g ch) = true
      · rw [if_pos hb, if_pos hb, ih]
        simp only [List.map_cons, List.sum_cons, Prod.mk.injEq]
        exact ⟨trivial, by omega⟩
      · rw [if_neg hb, if_neg hb, ih]
        simp only [List.map_cons, List.sum_cons, Prod.mk.injEq]
        exact ⟨trivial, by omega⟩

theorem mmFoldMinC_spec (f : GameState → Nat → XInt × Nat)
    (g : GameState → XInt) (n : GameState → Nat)
    (hf : ∀ ch c, f ch c = (g ch, c + n ch)) :
    ∀ (l : List (Int × GameState)) (acc : XInt × Option Int) (c : Nat),
      mmFoldMinC f l acc c =
        (mmFoldMin g l acc, c + (l.map (fun p => n p.2)).sum) := by
  intro l
  induction l with
  | nil =>
      rintro ⟨best, bm⟩ c
      simp [mmFoldMinC, mmFoldMin]
  | cons hd rest ih =>
      rcases hd with ⟨mv, ch⟩
      rintro ⟨best, bm⟩ c
      have hfc := hf ch c
      simp only [mmFoldMinC, mmFoldMin, hfc]
      by_cases hb : XInt.ltb (g ch) best = true
      · rw [if_pos hb, if_pos hb, ih]
        simp only [List.map_cons, List.sum_cons, Prod.mk.injEq]
        exact ⟨trivial, by omega⟩
      · rw [if_neg hb, if_neg hb, ih]
        simp only [List.map_cons, List.sum_cons, Prod.mk.injEq]
        exact ⟨trivial, by omega⟩

theorem minimaxC_spec : ∀ (d : Nat) (s : GameState) (b : Bool) (c : Nat),
    minimaxC s d b c = (minimax s d b, c + mmNodes s d b) := by
  intro d
  induction d with
  | zero =>
      intro s b c
      simp [minimaxC, minimax, mmNodes]
  | succ d ih =>
      intro s b c
      by_cases ht : is_terminal s = true
      · simp [minimaxC, minimax, mmNodes, ht]
      · have h' : is_terminal s = false := by simpa using ht
        cases b with
        | true =>
            have hunf : minimaxC s (d + 1) true c =
                mmFoldMaxC (fun ch c' => ((minimaxC ch d false c').1.1,
                    (minimaxC ch d false c').2)) (get_successors s)
                  (XInt.negInf, none) (c + 1) := by
              simp [minimaxC, h']
            have hnodes : mmNodes s (d + 1) true =
                1 + ((get_successors s).map
                  (fun p => mmNodes p.2 d false)).sum := by
              simp [mmNodes, h']
            rw [hunf, mmFoldMaxC_spec _ (fun ch => (minimax ch d false).1)
              (fun ch => mmNodes ch d false)
              (fun ch c' => by rw [ih ch false c']),
              minimax_succ_max s d h', hnodes]
            simp only [Prod.mk.injEq]
            exact ⟨trivial, by omega⟩
        | false =>
            have hunf : minimaxC s (d + 1) false c =
                mmFoldMinC (fun ch c' => ((minimaxC ch d true c').1.1,
                    (minimaxC ch d true c').2)) (get_successors s)
                  (XInt.posInf, none) (c + 1) := by
              simp [minimaxC, h']
            have hnodes : mmNodes s (d + 1) false =
                1 + ((get_successors s).map
                  (fun p => mmNodes p.2 d true)).sum := by
              simp [mmNodes, h']
            rw [hunf, mmFoldMinC_spec _ (fun ch => (minimax ch d true).1)
              (fun ch => mmNodes ch d true)
              (fun ch c' => by rw [ih ch true c']),
              minimax_succ_min s d h', hnodes]
            simp only [Prod.mk.injEq]
            exact ⟨trivial, by omega⟩

theorem abFoldMaxC_spec (f : GameState → XInt → XInt → Nat → XInt × Nat)
    (g : GameState → XInt → XInt → XInt)
    (hf : ∀ ch a b c, (f ch a b c).1 = g ch a b ∧
      (f ch a b c).2 = c + (f ch a b 0).2) :
    ∀ (l : List (Int × GameState)) (alpha beta : XInt)
      (acc : XInt × Option Int) (c : Nat),
      (abFoldMaxC f l alpha beta acc c).1 = abFoldMax g l alpha beta acc ∧
      (abFoldMaxC f l alpha beta acc c).2 =
        c + (abFoldMaxC f l alpha beta acc 0).2 := by
  intro l
  induction l with
  | nil =>
      rintro alpha beta ⟨best, bm⟩ c
      simp [abFoldMaxC, abFoldMax]
  | cons hd rest ih =>
      rcases hd with ⟨mv, ch⟩
      rintro alpha beta ⟨best, bm⟩ c
      obtain ⟨hv, hc⟩ := hf ch alpha beta c
      obtain ⟨hv0, hc0⟩ := hf ch alpha beta 0
      set N := (f ch alpha beta 0).2 with hN
      have hfc : f ch alpha beta c = (g ch alpha beta, c + N) := by
        rw [← hv, ← hc]
      have hfc0 : f ch alpha beta 0 = (g ch alpha beta, N) := by
        rw [← hv0, hN]
      simp only [abFoldMaxC, abFoldMax, hfc, hfc0]
      cases hA : (if XInt.ltb best (g ch alpha beta)
          then ((g ch alpha beta), some mv) else (best, bm)) with
      | mk bv bmv =>
        simp only [hA]
        by_cases hcut : XInt.leb beta (XInt.max2 alpha bv) = true
        · simp only [if_pos hcut]
          exact ⟨trivial, trivial⟩
        · simp only [if_neg hcut]
          obtain ⟨ih1, ih2⟩ := ih (XInt.max2 alpha bv) beta (bv, bmv) (c + N)
          obtain ⟨ih1b, ih2b⟩ := ih (XInt.max2 alpha bv) beta (bv, bmv) N
          refine ⟨ih1, ?_⟩
          rw [ih2, ih2b]
          omega

theorem abFoldMinC_spec (f : GameState → XInt → XInt → Nat → XInt × Nat)
    (g : GameState → XInt → XInt → XInt)
    (hf : ∀ ch a b c, (f ch a b c).1 = g ch a b ∧
      (f ch a b c).2 = c + (f ch a b 0).2) :
    ∀ (l : List (Int × GameState)) (alpha beta : XInt)
      (acc : XInt × Option Int) (c : Nat),
      (abFoldMinC f l alpha beta acc c).1 = abFoldMin g l alpha beta acc ∧
      (abFoldMinC f l alpha beta acc c).2 =
        c + (abFoldMinC f l alpha beta acc 0).2 := by
  intro l
  induction l with
  | nil =>
      rintro alpha beta ⟨best, bm⟩ c
      simp [abFoldMinC, abFoldMin]
  | cons hd rest ih =>
      rcases hd with ⟨mv, ch⟩
      rintro alpha beta ⟨best, bm⟩ c
      obtain ⟨hv, hc⟩ := hf ch alpha beta c
      obtain ⟨hv0, hc0⟩ := hf ch alpha beta 0
      set N := (f ch alpha beta 0).2 with hN
      have hfc : f ch alpha beta c = (g ch alpha beta, c + N) := by
        rw [← hv, ← hc]
      have hfc0 : f ch alpha beta 0 = (g ch alpha beta, N) := by
        rw [← hv0, hN]
      simp only [abFoldMinC, abFoldMin, hfc, hfc0]
      cases hA : (if XInt.ltb (g ch alpha beta) best
          then ((g ch alpha beta), some mv) else (best, bm)) with
      | mk bv bmv =>
        simp only [hA]
        by_cases hcut : XInt.leb (XInt.min2 beta bv) alpha = true
        · simp only [if_pos hcut]
          exact ⟨trivial, trivial⟩
        · simp only [if_neg hcut]
          obtain ⟨ih1, ih2⟩ := ih alpha (XInt.min2 beta bv) (bv, bmv) (c + N)
          obtain ⟨ih1b, ih2b⟩ := ih alpha (XInt.min2 beta bv) (bv, bmv) N
          refine ⟨ih1, ?_⟩
          rw [ih2, ih2b]
          omega

theorem alpha_betaC_spec : ∀ (d : Nat) (s : GameState) (a β : XInt)
    (b : Bool) (c : Nat),
    (alpha_betaC s d a β b c).1 = alpha_beta s d a β b ∧
    (alpha_betaC s d a β b c).2 = c + (alpha_betaC s d a β b 0).2 := by
  intro d
  induction d with
  | zero =>
      intro s a β b c
      simp [alpha_betaC, alpha_beta]
  | succ d ih =>
      intro s a β b c
      by_cases ht : is_terminal s = true
      · simp [alpha_betaC, alpha_beta, ht]
      · have h' : is_terminal s = false := by simpa using ht
        cases b with
        | true =>
            have hunf : ∀ c', alpha_betaC s (d + 1) a β true c' =
                abFoldMaxC (fun ch a' β' c'' =>
                    ((alpha_betaC ch d a' β' false c'').1.1,
                     (alpha_betaC ch d a' β' false c'').2))
                  (get_successors s) a β (XInt.negInf, none) (c' + 1) := by
              intro c'
              simp [alpha_betaC, h']
            have hunf2 : alpha_beta s (d + 1) a β true =
                abFoldMax (fun ch a' β' => (alpha_beta ch d a' β' false).1)
                  (get_successors s) a β (XInt.negInf, none) := by
              simp [alpha_beta, h']
            have hfold := abFoldMaxC_spec
              (fun ch a' β' c'' => ((alpha_betaC ch d a' β' false c'').1.1,
                (alpha_betaC ch d a' β' false c'').2))
              (fun ch a' β' => (alpha_beta ch d a' β' false).1)
              (fun ch a' β' c'' =>
                ⟨congrArg Prod.fst (ih ch a' β' false c'').1,
                 (ih ch a' β' false c'').2⟩)
              (get_successors s) a β (XInt.negInf, none)
            constructor
            · rw [hunf c, hunf2]
              exact (hfold (c + 1)).1
            · rw [hunf c, hunf 0]
              have h2 := (hfold (c + 1)).2
              have h2b := (hfold (0 + 1)).2
              rw [h2, h2b]
              omega
        | false =>
            have hunf : ∀ c', alpha_betaC s (d + 1) a β false c' =
                abFoldMinC (fun ch a' β' c'' =>
                    ((alpha_betaC ch d a' β' true c'').1.1,
                     (alpha_betaC ch d a' β' true c'').2))
                  (get_successors s) a β (XInt.posInf, none) (c' + 1) := by
              intro c'
              simp [alpha_betaC, h']
            have hunf2 : alpha_beta s (d + 1) a β false =
                abFoldMin (fun ch a' β' => (alpha_beta ch d a' β' true).1)
                  (get_successors s) a β (XInt.posInf, none) := by
              simp [alpha_beta, h']
            have hfold := abFoldMinC_spec
              (fun ch a' β' c'' => ((alpha_betaC ch d a' β' true c'').1.1,
                (alpha_betaC ch d a' β' true c'').2))
              (fun ch a' β' => (alpha_beta ch d a' β' true).1)
              (fun ch a' β' c'' =>
                ⟨congrArg Prod.fst (ih ch a' β' true c'').1,
                 (ih ch a' β' true c'').2⟩)
              (get_successors s) a β (XInt.posInf, none)
            constructor
            · rw [hunf c, hunf2]
              exact (hfold (c + 1)).1
            · rw [hunf c, hunf 0]
              have h2 := (hfold (c + 1)).2
              have h2b := (hfold (0 + 1)).2
              rw [h2, h2b]
              omega

/-- C10: `computer_move` compares the algorithm tag only against the
exact string `"Minimax"`; every other string (including the lowercase
interface tags) selects the alpha-beta engine, with no failure path. -/
theorem C10_dispatch (s : GameState) (d : Nat) :
    computer_move s "Minimax" d = (minimax s d true).2 ∧
    computer_move s "minimax" d =
      (alpha_beta s d XInt.negInf XInt.posInf true).2 ∧
    computer_move s "alpha-beta" d =
      (alpha_beta s d XInt.negInf XInt.posInf true).2 ∧
    ∀ alg : String, alg ≠ "Minimax" →
      computer_move s alg d =
        (alpha_beta s d XInt.negInf XInt.posInf true).2 := by
  refine ⟨by rw [computer_move, if_pos rfl], ?_, ?_, fun alg h => by
    rw [computer_move, if_neg h]⟩
  · rw [computer_move, if_neg (by decide)]
  · rw [computer_move, if_neg (by decide)]

theorem C10_dispatch_witness :
    ("AlphaBeta" : String) ≠ "Minimax" ∧
    computer_move ⟨8, 0, 0, Player.human⟩ "AlphaBeta" 0 =
      (alpha_beta ⟨8, 0, 0, Player.human⟩ 0 XInt.negInf XInt.posInf true).2 :=
  ⟨by decide,
   (C10_dispatch ⟨8, 0, 0, Player.human⟩ 0).2.2.2 "AlphaBeta" (by decide)⟩

/-- C9 (amended): `computer_move` does not itself reset the node counter;
it adds exactly the node count of the search it runs (one increment per
recursive invocation, base cases included) on top of the counter's prior
value, and the reset to zero is performed by its caller
(`GameGUI.computer_turn`) immediately before the call, so only the
reset-then-search sequence leaves the counter equal to the nodes visited
by that single search. -/
theorem C9_counter_amended (s : GameState) (alg : String) (d : Nat)
    (c : Nat) :
    (computer_moveC s alg d c).1 = computer_move s alg d ∧
    (computer_moveC s alg d c).2 = c + (computer_moveC s alg d 0).2 ∧
    (computer_moveC s "Minimax" d c).2 = c + mmNodes s d true := by
  refine ⟨?_, ?_, ?_⟩
  · by_cases h : alg = "Minimax"
    · simp only [computer_moveC, computer_move, if_pos h, minimaxC_spec]
    · simp only [computer_moveC, computer_move, if_neg h]
      exact congrArg Prod.snd
        (alpha_betaC_spec d s XInt.negInf XInt.posInf true c).1
  · by_cases h : alg = "Minimax"
    · simp only [computer_moveC, if_pos h, minimaxC_spec]
      omega
    · simp only [computer_moveC, if_neg h]
      exact (alpha_betaC_spec d s XInt.negInf XInt.posInf true c).2
  · simp [computer_moveC, minimaxC_spec]

/-- C9 counterexample: with a prior counter value of 5, a depth-0 search
through `computer_move` (which visits exactly one node) leaves the
counter at 6, not at the search's node count 1 — so the counter is not
reset to zero at the start of the `computer_move` call. -/
theorem C9_counter_not_reset :
    (computer_moveC ⟨8, 0, 0, Player.computer⟩ "Minimax" 0 5).2 = 6 ∧
    (computer_moveC ⟨8, 0, 0, Player.computer⟩ "Minimax" 0 0).2 = 1 ∧
    mmNodes ⟨8, 0, 0, Player.computer⟩ 0 true = 1 ∧ (6 : Nat) ≠ 1 := by
  exact ⟨rfl, rfl, rfl, by decide⟩

theorem XInt.not_ltb (a b : XInt) (h : b ≤ a) : ¬ (XInt.ltb a b = true) :=
  fun hh => absurd ((XInt.lt_def a b).mpr hh) (not_lt.mpr h)

theorem XInt.not_leb (a b : XInt) (h : b < a) : ¬ (XInt.leb a b = true) :=
  fun hh => absurd ((XInt.le_def a b).mpr hh) (not_le.mpr h)

theorem Tri_refl (v a b : XInt) : Tri v v a b :=
  ⟨fun _ => le_refl v, fun _ => le_refl v, fun _ _ => rfl⟩

theorem alpha_beta_zero (s : GameState) (a β : XInt) (b : Bool) :
    alpha_beta s 0 a β b = (XInt.int (evaluate s), none) := rfl

theorem alpha_beta_terminal (s : GameState) (d : Nat) (a β : XInt) (b : Bool)
    (h : is_terminal s = true) :
    alpha_beta s d a β b = (XInt.int (evaluate s), none) := by
  cases d <;> simp [alpha_beta, h]

theorem alpha_beta_succ_max (s : GameState) (d : Nat) (a β : XInt)
    (h : is_terminal s = false) :
    alpha_beta s (d + 1) a β true =
      abFoldMax (fun c a' β' => (alpha_beta c d a' β' false).1)
        (get_successors s) a β (XInt.negInf, none) := by
  simp [alpha_beta, h]

theorem alpha_beta_succ_min (s : GameState) (d : Nat) (a β : XInt)
    (h : is_terminal s = false) :
    alpha_beta s (d + 1) a β false =
      abFoldMin (fun c a' β' => (alpha_beta c d a' β' true).1)
        (get_successors s) a β (XInt.posInf, none) := by
  simp [alpha_beta, h]

theorem abFoldMax_acc_le (f : GameState → XInt → XInt → XInt) :
    ∀ (l : List (Int × GameState)) (alpha β best : XInt) (bm : Option Int),
      best ≤ (abFoldMax f l alpha β (best, bm)).1 := by
  intro l
  induction l with
  | nil =>
      intro alpha β best bm
      exact le_refl _
  | cons hd rest ih =>
      rcases hd with ⟨mv, c⟩
      intro alpha β best bm
      simp only [abFoldMax]
      by_cases hrep : XInt.ltb best (f c alpha β) = true
      · simp only [if_pos hrep]
        have hbv : best ≤ f c alpha β :=
          le_of_lt ((XInt.lt_def _ _).mpr hrep)
        by_cases hcut :
            XInt.leb β (XInt.max2 alpha (f c alpha β)) = true
        · simp only [if_pos hcut]
          exact hbv
        · simp only [if_neg hcut]
          exact le_trans hbv (ih _ _ _ _)
      · simp only [if_neg hrep]
        by_cases hcut : XInt.leb β (XInt.max2 alpha best) = true
        · simp only [if_pos hcut]
          exact le_refl _
        · simp only [if_neg hcut]
          exact ih _ _ _ _

theorem abFoldMin_acc_ge (f : GameState → XInt → XInt → XInt) :
    ∀ (l : List (Int × GameState)) (alpha β best : XInt) (bm : Option Int),
      (abFoldMin f l alpha β (best, bm)).1 ≤ best := by
  intro l
  induction l with
  | nil =>
      intro alpha β best bm
      exact le_refl _
  | cons hd rest ih =>
      rcases hd with ⟨mv, c⟩
      intro alpha β best bm
      simp only [abFoldMin]
      by_cases hrep : XInt.ltb (f c alpha β) best = true
      · simp only [if_pos hrep]
        have hbv : f c alpha β ≤ best :=
          le_of_lt ((XInt.lt_def _ _).mpr hrep)
        by_cases hcut :
            XInt.leb (XInt.min2 β (f c alpha β)) alpha = true
        · simp only [if_pos hcut]
          exact hbv
        · simp only [if_neg hcut]
          exact le_trans (ih _ _ _ _) hbv
      · simp only [if_neg hrep]
        by_cases hcut : XInt.leb (XInt.min2 β best) alpha = true
        · simp only [if_pos hcut]
          exact le_refl _
        · simp only [if_neg hcut]
          exact ih _ _ _ _

theorem abFoldMax_tri (f : GameState → XInt → XInt → XInt)
    (g : GameState → XInt) (β : XInt) :
    ∀ (l : List (Int × GameState)) (alpha b_ab b_mm : XInt)
      (bm bm' : Option Int),
      (∀ p ∈ l, ∀ a' β' : XInt, a' < β' → Tri (f p.2 a' β') (g p.2) a' β') →
      alpha < β → b_ab ≤ alpha → b_mm ≤ b_ab →
      Tri (abFoldMax f l alpha β (b_ab, bm)).1
        (mmFoldMax g l (b_mm, bm')).1 alpha β := by
  intro l
  induction l with
  | nil =>
      intro alpha b_ab b_mm bm bm' _ hαβ hab hmm
      exact ⟨fun _ => hmm,
        fun hβ => absurd (le_trans hβ hab) (not_le.mpr hαβ),
        fun h _ => absurd h (not_lt.mpr hab)⟩
  | cons hd rest ih =>
      rcases hd with ⟨mv, c⟩
      intro alpha b_ab b_mm bm bm' H hαβ hab hmm
      have Hr : ∀ p ∈ rest, ∀ a' β' : XInt, a' < β' →
          Tri (f p.2 a' β') (g p.2) a' β' :=
        fun p hp => H p (List.mem_cons_of_mem _ hp)
      obtain ⟨t1, t2, t3⟩ := H (mv, c) (List.mem_cons_self _ _) alpha β hαβ
      simp only [abFoldMax, mmFoldMax]
      rcases le_or_lt (f c alpha β) alpha with hA | hgt
      · -- the child fails low: its minimax value is bounded by its result
        have hgc : g c ≤ f c alpha β := t1 hA
        by_cases hrep : XInt.ltb b_ab (f c alpha β) = true
        · simp only [if_pos hrep]
          rw [XInt.max2_eq_max, max_eq_left hA,
            if_neg (XInt.not_leb β alpha hαβ)]
          by_cases hrep2 : XInt.ltb b_mm (g c) = true
          · simp only [if_pos hrep2]
            exact ih alpha (f c alpha β) (g c) (some mv) (some mv)
              Hr hαβ hA hgc
          · simp only [if_neg hrep2]
            exact ih alpha (f c alpha β) b_mm (some mv) bm' Hr hαβ hA
              (le_trans hmm (le_of_lt ((XInt.lt_def _ _).mpr hrep)))
        · simp only [if_neg hrep]
          have hvb : f c alpha β ≤ b_ab :=
            not_lt.mp (fun hh => hrep ((XInt.lt_def _ _).mp hh))
          rw [XInt.max2_eq_max, max_eq_left hab,
            if_neg (XInt.not_leb β alpha hαβ)]
          by_cases hrep2 : XInt.ltb b_mm (g c) = true
          · simp only [if_pos hrep2]
            exact ih alpha b_ab (g c) bm (some mv) Hr hαβ hab
              (le_trans hgc hvb)
          · simp only [if_neg hrep2]
            exact ih alpha b_ab b_mm bm bm' Hr hαβ hab hmm
      · rcases lt_or_le (f c alpha β) β with hB | hC
        · -- the child value is exact: alpha < f c alpha β < β
          have hgc : f c alpha β = g c := t3 hgt hB
          have hrep : XInt.ltb b_ab (f c alpha β) = true :=
            (XInt.lt_def _ _).mp (lt_of_le_of_lt hab hgt)
          simp only [if_pos hrep]
          rw [XInt.max2_eq_max, max_eq_right (le_of_lt hgt),
            if_neg (XInt.not_leb β (f c alpha β) hB)]
          have hrep2 : XInt.ltb b_mm (g c) = true :=
            (XInt.lt_def _ _).mp
              (by rw [← hgc]; exact lt_of_le_of_lt (le_trans hmm hab) hgt)
          simp only [if_pos hrep2]
          rw [← hgc]
          obtain ⟨r1, r2, r3⟩ := ih (f c alpha β) (f c alpha β) (f c alpha β)
            (some mv) (some mv) Hr hB (le_refl _) (le_refl _)
          have hvge : f c alpha β ≤
              (abFoldMax f rest (f c alpha β) β (f c alpha β, some mv)).1 :=
            abFoldMax_acc_le f rest (f c alpha β) β (f c alpha β) (some mv)
          have hmge : f c alpha β ≤
              (mmFoldMax g rest (f c alpha β, some mv)).1 :=
            (mmFoldMax_spec g rest (f c alpha β) (some mv)).1
          refine ⟨?_, r2, ?_⟩
          · intro hlow
            exact absurd hlow (not_le.mpr (lt_of_lt_of_le hgt hvge))
          · intro hav hvb
            rcases lt_or_le (f c alpha β)
                ((abFoldMax f rest (f c alpha β) β
                  (f c alpha β, some mv)).1) with hlt2 | hle2
            · exact r3 hlt2 hvb
            · have hveq : (abFoldMax f rest (f c alpha β) β
                  (f c alpha β, some mv)).1 = f c alpha β :=
                le_antisymm hle2 hvge
              exact le_antisymm (le_trans hveq.le hmge) (r1 hveq.le)
        · -- the child fails high: cut-off, its value bounds minimax below
          have hgc : f c alpha β ≤ g c := t2 hC
          have hrep : XInt.ltb b_ab (f c alpha β) = true :=
            (XInt.lt_def _ _).mp (lt_of_le_of_lt hab hgt)
          simp only [if_pos hrep]
          rw [XInt.max2_eq_max, max_eq_right (le_of_lt hgt),
            if_pos ((XInt.le_def _ _).mp hC)]
          have hrep2 : XInt.ltb b_mm (g c) = true :=
            (XInt.lt_def _ _).mp (lt_of_le_of_lt (le_trans hmm hab)
              (lt_of_lt_of_le hgt hgc))
          simp only [if_pos hrep2]
          have hmge : g c ≤ (mmFoldMax g rest (g c, some mv)).1 :=
            (mmFoldMax_spec g rest (g c) (some mv)).1
          refine ⟨?_, ?_, ?_⟩
          · intro hlow
            exact absurd hlow (not_le.mpr hgt)
          · intro _
            exact le_trans hgc hmge
          · intro _ hvb
            exact absurd hvb (not_lt.mpr hC)

theorem abFoldMin_tri (f : GameState → XInt → XInt → XInt)
    (g : GameState → XInt) (alpha : XInt) :
    ∀ (l : List (Int × GameState)) (β b_ab b_mm : XInt)
      (bm bm' : Option Int),
      (∀ p ∈ l, ∀ a' β' : XInt, a' < β' → Tri (f p.2 a' β') (g p.2) a' β') →
      alpha < β → β ≤ b_ab → b_ab ≤ b_mm →
      Tri (abFoldMin f l alpha β (b_ab, bm)).1
        (mmFoldMin g l (b_mm, bm')).1 alpha β := by
  intro l
  induction l with
  | nil =>
      intro β b_ab b_mm bm bm' _ hαβ hβb hbm
      exact ⟨fun hlow => absurd (le_trans hβb hlow) (not_le.mpr hαβ),
        fun _ => hbm,
        fun _ hvb => absurd hvb (not_lt.mpr hβb)⟩
  | cons hd rest ih =>
      rcases hd with ⟨mv, c⟩
      intro β b_ab b_mm bm bm' H hαβ hβb hbm
      have Hr : ∀ p ∈ rest, ∀ a' β' : XInt, a' < β' →
          Tri (f p.2 a' β') (g p.2) a' β' :=
        fun p hp => H p (List.mem_cons_of_mem _ hp)
      obtain ⟨t1, t2, t3⟩ := H (mv, c) (List.mem_cons_self _ _) alpha β hαβ
      simp only [abFoldMin, mmFoldMin]
      rcases le_or_lt β (f c alpha β) with hA | hlt
      · -- the child fails high: its minimax value is bounded below
        have hgc : f c alpha β ≤ g c := t2 hA
        by_cases hrep : XInt.ltb (f c alpha β) b_ab = true
        · simp only [if_pos hrep]
          rw [XInt.min2_eq_min, min_eq_left hA,
            if_neg (XInt.not_leb β alpha hαβ)]
          by_cases hrep2 : XInt.ltb (g c) b_mm = true
          · simp only [if_pos hrep2]
            exact ih β (f c alpha β) (g c) (some mv) (some mv)
              Hr hαβ hA hgc
          · simp only [if_neg hrep2]
            exact ih β (f c alpha β) b_mm (some mv) bm' Hr hαβ hA
              (le_trans (le_of_lt ((XInt.lt_def _ _).mpr hrep)) hbm)
        · simp only [if_neg hrep]
          have hvb : b_ab ≤ f c alpha β :=
            not_lt.mp (fun hh => hrep ((XInt.lt_def _ _).mp hh))
          rw [XInt.min2_eq_min, min_eq_left hβb,
            if_neg (XInt.not_leb β alpha hαβ)]
          by_cases hrep2 : XInt.ltb (g c) b_mm = true
          · simp only [if_pos hrep2]
            exact ih β b_ab (g c) bm (some mv) Hr hαβ hβb
              (le_trans hvb hgc)
          · simp only [if_neg hrep2]
            exact ih β b_ab b_mm bm bm' Hr hαβ hβb hbm
      · rcases lt_or_le alpha (f c alpha β) with hB | hC
        · -- the child value is exact: alpha < f c alpha β < β
          have hgc : f c alpha β = g c := t3 hB hlt
          have hrep : XInt.ltb (f c alpha β) b_ab = true :=
            (XInt.lt_def _ _).mp (lt_of_lt_of_le hlt hβb)
          simp only [if_pos hrep]
          rw [XInt.min2_eq_min, min_eq_right (le_of_lt hlt),
            if_neg (XInt.not_leb (f c alpha β) alpha hB)]
          have hrep2 : XInt.ltb (g c) b_mm = true :=
            (XInt.lt_def _ _).mp
              (by rw [← hgc]; exact lt_of_lt_of_le hlt (le_trans hβb hbm))
          simp only [if_pos hrep2]
          rw [← hgc]
          obtain ⟨r1, r2, r3⟩ := ih (f c alpha β) (f c alpha β) (f c alpha β)
            (some mv) (some mv) Hr hB (le_refl _) (le_refl _)
          have hvle : (abFoldMin f rest alpha (f c alpha β)
              (f c alpha β, some mv)).1 ≤ f c alpha β :=
            abFoldMin_acc_ge f rest alpha (f c alpha β) (f c alpha β)
              (some mv)
          have hmle : (mmFoldMin g rest (f c alpha β, some mv)).1 ≤
              f c alpha β :=
            (mmFoldMin_spec g rest (f c alpha β) (some mv)).1
          refine ⟨r1, ?_, ?_⟩
          · intro hβv
            exact absurd (le_trans hβv hvle) (not_le.mpr hlt)
          · intro hav hvβ
            rcases lt_or_le ((abFoldMin f rest alpha (f c alpha β)
                (f c alpha β, some mv)).1) (f c alpha β) with hlt2 | hge2
            · exact r3 hav hlt2
            · have hveq : (abFoldMin f rest alpha (f c alpha β)
                  (f c alpha β, some mv)).1 = f c alpha β :=
                le_antisymm hvle hge2
              exact le_antisymm (r2 hge2) (le_trans hmle hveq.symm.le)
        · -- the child fails low: cut-off
          have hgc : g c ≤ f c alpha β := t1 hC
          have hrep : XInt.ltb (f c alpha β) b_ab = true :=
            (XInt.lt_def _ _).mp
              (lt_of_le_of_lt hC (lt_of_lt_of_le hαβ hβb))
          simp only [if_pos hrep]
          rw [XInt.min2_eq_min, min_eq_right (le_trans hC (le_of_lt hαβ)),
            if_pos ((XInt.le_def _ _).mp hC)]
          have hrep2 : XInt.ltb (g c) b_mm = true :=
            (XInt.lt_def _ _).mp (lt_of_le_of_lt (le_trans hgc hC)
              (lt_of_lt_of_le hαβ (le_trans hβb hbm)))
          simp only [if_pos hrep2]
          have hmle : (mmFoldMin g rest (g c, some mv)).1 ≤ g c :=
            (mmFoldMin_spec g rest (g c) (some mv)).1
          refine ⟨?_, ?_, ?_⟩
          · intro _
            exact le_trans hmle hgc
          · intro hβv
            exact absurd (le_trans hβv hC) (not_le.mpr hαβ)
          · intro hav _
            exact absurd hav (not_lt.mpr hC)

theorem alpha_beta_tri : ∀ (d : Nat) (s : GameState) (b : Bool)
    (a β : XInt), a < β →
    Tri (alpha_beta s d a β b).1 (minimax s d b).1 a β := by
  intro d
  induction d with
  | zero =>
      intro s b a β _
      exact Tri_refl _ _ _
  | succ d ih =>
      intro s b a β hab
      by_cases ht : is_terminal s = true
      · rw [alpha_beta_terminal s (d + 1) a β b ht,
          minimax_terminal s (d + 1) b ht]
        exact Tri_refl _ _ _
      · have h' : is_terminal s = false := by simpa using ht
        cases b with
        | true =>
            rw [alpha_beta_succ_max s d a β h', minimax_succ_max s d h']
            exact abFoldMax_tri _ _ β (get_successors s) a
              XInt.negInf XInt.negInf none none
              (fun p _ a' β' h => ih p.2 false a' β' h) hab
              (XInt.negInf_le a) (le_refl _)
        | false =>
            rw [alpha_beta_succ_min s d a β h', minimax_succ_min s d h']
            exact abFoldMin_tri _ _ a (get_successors s) β
              XInt.posInf XInt.posInf none none
              (fun p _ a' β' h => ih p.2 true a' β' h) hab
              (XInt.le_posInf β) (le_refl _)

theorem abFoldMax_root (f : GameState → XInt → XInt → XInt)
    (g : GameState → XInt) :
    ∀ (l : List (Int × GameState)) (b : XInt) (bm : Option Int),
      (∀ p ∈ l, ∀ a' β' : XInt, a' < β' → Tri (f p.2 a' β') (g p.2) a' β') →
      (∀ p ∈ l, (g p.2).isFin = true) →
      b ≠ XInt.posInf →
      abFoldMax f l b XInt.posInf (b, bm) = mmFoldMax g l (b, bm) := by
  intro l
  induction l with
  | nil =>
      intro b bm _ _ _
      rfl
  | cons hd rest ih =>
      rcases hd with ⟨mv, c⟩
      intro b bm H Hfin hb
      have Hr : ∀ p ∈ rest, ∀ a' β' : XInt, a' < β' →
          Tri (f p.2 a' β') (g p.2) a' β' :=
        fun p hp => H p (List.mem_cons_of_mem _ hp)
      have Hfr : ∀ p ∈ rest, (g p.2).isFin = true :=
        fun p hp => Hfin p (List.mem_cons_of_mem _ hp)
      have hbp : b < XInt.posInf := lt_of_le_of_ne (XInt.le_posInf b) hb
      obtain ⟨t1, t2, t3⟩ := H (mv, c) (List.mem_cons_self _ _)
        b XInt.posInf hbp
      have hgfin : (g c).isFin = true := Hfin (mv, c) (List.mem_cons_self _ _)
      have hgtop : g c < XInt.posInf := XInt.lt_posInf_of_isFin _ hgfin
      simp only [abFoldMax, mmFoldMax]
      rcases le_or_lt (f c b XInt.posInf) b with hA | hgt
      · -- failed low at the root window: neither loop replaces the best
        have hgc : g c ≤ b := le_trans (t1 hA) hA
        rw [if_neg (XInt.not_ltb b (f c b XInt.posInf) hA),
          if_neg (XInt.not_ltb b (g c) hgc)]
        rw [XInt.max2_eq_max, max_self,
          if_neg (XInt.not_leb XInt.posInf b hbp)]
        exact ih b bm Hr Hfr hb
      · -- the child value is exact at the root window: both loops replace
        have hvtop : f c b XInt.posInf < XInt.posInf := by
          rcases lt_or_le (f c b XInt.posInf) XInt.posInf with h | h
          · exact h
          · exact absurd (le_trans h (t2 h)) (not_le.mpr hgtop)
        have hgc : f c b XInt.posInf = g c := t3 hgt hvtop
        rw [if_pos ((XInt.lt_def _ _).mp hgt),
          if_pos ((XInt.lt_def _ _).mp (hgc ▸ hgt))]
        rw [XInt.max2_eq_max, max_eq_right (le_of_lt hgt),
          if_neg (XInt.not_leb XInt.posInf (f c b XInt.posInf) hvtop)]
        rw [← hgc]
        exact ih (f c b XInt.posInf) (some mv) Hr Hfr
          (fun hh => absurd (hh ▸ hvtop) (lt_irrefl _))

theorem abFoldMin_root (f : GameState → XInt → XInt → XInt)
    (g : GameState → XInt) :
    ∀ (l : List (Int × GameState)) (b : XInt) (bm : Option Int),
      (∀ p ∈ l, ∀ a' β' : XInt, a' < β' → Tri (f p.2 a' β') (g p.2) a' β') →
      (∀ p ∈ l, (g p.2).isFin = true) →
      b ≠ XInt.negInf →
      abFoldMin f l XInt.negInf b (b, bm) = mmFoldMin g l (b, bm) := by
  intro l
  induction l with
  | nil =>
      intro b bm _ _ _
      rfl
  | cons hd rest ih =>
      rcases hd with ⟨mv, c⟩
      intro b bm H Hfin hb
      have Hr : ∀ p ∈ rest, ∀ a' β' : XInt, a' < β' →
          Tri (f p.2 a' β') (g p.2) a' β' :=
        fun p hp => H p (List.mem_cons_of_mem _ hp)
      have Hfr : ∀ p ∈ rest, (g p.2).isFin = true :=
        fun p hp => Hfin p (List.mem_cons_of_mem _ hp)
      have hbp : XInt.negInf < b :=
        lt_of_le_of_ne (XInt.negInf_le b) (fun hh => hb hh.symm)
      obtain ⟨t1, t2, t3⟩ := H (mv, c) (List.mem_cons_self _ _)
        XInt.negInf b hbp
      have hgfin : (g c).isFin = true := Hfin (mv, c) (List.mem_cons_self _ _)
      have hgbot : XInt.negInf < g c := XInt.negInf_lt_of_isFin _ hgfin
      simp only [abFoldMin, mmFoldMin]
      rcases le_or_lt b (f c XInt.negInf b) with hA | hlt
      · -- failed high at the root window: neither loop replaces the best
        have hgc : b ≤ g c := le_trans hA (t2 hA)
        rw [if_neg (XInt.not_ltb (f c XInt.negInf b) b hA),
          if_neg (XInt.not_ltb (g c) b hgc)]
        rw [XInt.min2_eq_min, min_self,
          if_neg (XInt.not_leb b XInt.negInf hbp)]
        exact ih b bm Hr Hfr hb
      · -- the child value is exact at the root window: both loops replace
        have hvbot : XInt.negInf < f c XInt.negInf b := by
          rcases lt_or_le XInt.negInf (f c XInt.negInf b) with h | h
          · exact h
          · exact absurd (le_trans (t1 h) h) (not_le.mpr hgbot)
        have hgc : f c XInt.negInf b = g c := t3 hvbot hlt
        rw [if_pos ((XInt.lt_def _ _).mp hlt),
          if_pos ((XInt.lt_def _ _).mp (hgc ▸ hlt))]
        rw [XInt.min2_eq_min, min_eq_right (le_of_lt hlt),
          if_neg (XInt.not_leb (f c XInt.negInf b) XInt.negInf hvbot)]
        rw [← hgc]
        exact ih (f c XInt.negInf b) (some mv) Hr Hfr
          (fun hh => absurd (hh ▸ hvbot) (lt_irrefl _))

/-- C1: for every state and depth, `alpha_beta` run with the full
initial window (alpha = -inf, beta = +inf) returns exactly the same
score and selects exactly the same move (multiplier) as plain `minimax`,
for both the maximizing and the minimizing flag. -/
theorem C1_alpha_beta_eq_minimax (s : GameState) (d : Nat) (b : Bool) :
    alpha_beta s d XInt.negInf XInt.posInf b = minimax s d b := by
  cases d with
  | zero => rfl
  | succ d =>
      by_cases ht : is_terminal s = true
      · rw [alpha_beta_terminal s (d + 1) _ _ b ht,
          minimax_terminal s (d + 1) b ht]
      · have h' : is_terminal s = false := by simpa using ht
        cases b with
        | true =>
            rw [alpha_beta_succ_max s d _ _ h', minimax_succ_max s d h']
            exact abFoldMax_root _ _ (get_successors s) XInt.negInf none
              (fun p _ a' β' h => alpha_beta_tri d p.2 false a' β' h)
              (fun p _ => minimax_isFin d p.2 false)
              (fun hh => XInt.noConfusion hh)
        | false =>
            rw [alpha_beta_succ_min s d _ _ h', minimax_succ_min s d h']
            exact abFoldMin_root _ _ (get_successors s) XInt.posInf none
              (fun p _ a' β' h => alpha_beta_tri d p.2 true a' β' h)
              (fun p _ => minimax_isFin d p.2 true)
              (fun hh => XInt.noConfusion hh)
